import Mathlib

/-!
Verification of the MNA (modified nodal analysis) circuit simulator:
a shallow embedding of `src/model.rs`, `src/disjoint_set.rs` and
`src/simulator.rs` into Lean, together with proofs about the embedded code.

Modelling conventions:
* `f64` arithmetic is embedded as exact rational arithmetic (`ℚ`).
* Rust panics (failed `HashMap` index, `unwrap`, invalid terminal index,
  arithmetic underflow of `usize`) are modelled as `Option`/`Except` failures,
  with a distinct `SimError` constructor per panic site.
* Rust `HashMap` iteration order is unspecified; the model fixes the
  deterministic first-occurrence order (the spec, section 4.2, allows any
  deterministic policy here).
-/

/-! ## Data model (`src/model.rs`) -/

/-- `TerminalID` from `model.rs`: a component index paired with a terminal
index (0 or 1 for well-formed circuits). -/
structure TerminalID where
  component_id : ℕ
  idx : ℕ
deriving DecidableEq, Repr

/-- `Components` from `model.rs`: a resistor carrying a resistance, or a
voltage generator carrying a source voltage. -/
inductive Components where
  | Resistor : ℚ → Components
  | VoltageGenerator : ℚ → Components
deriving DecidableEq, Repr

/-- `Circuit` from `model.rs`. -/
structure Circuit where
  components : List Components
  terminal_edges : List (TerminalID × TerminalID)
deriving DecidableEq, Repr

/-! ## Union-find (`src/disjoint_set.rs`)

The Rust `DisjointSet` stores a `HashMap<TerminalID, TerminalID>` mapping each
seeded terminal to its parent.  The model keeps the key set as a list (in
first-occurrence insertion order, standing in for the unspecified hash
iteration order) and the map as a total function that is the identity outside
the key set (the Rust `find` panics there; the claims only use seeded
terminals). -/

/-- Insert a key into a key list unless already present (the effect of a
`HashMap` insert on the key set, with first-occurrence order). -/
def insertKey (ks : List TerminalID) (t : TerminalID) : List TerminalID :=
  if t ∈ ks then ks else ks ++ [t]

/-- The key set of a `HashMap` built by inserting the given keys in order. -/
def keysOf (ts : List TerminalID) : List TerminalID :=
  ts.foldl insertKey []

/-- `DisjointSet` from `disjoint_set.rs`. -/
structure DisjointSet where
  keys : List TerminalID
  parent : TerminalID → TerminalID

/-- `DisjointSet::new`: every seeded terminal is its own parent. -/
def DisjointSet.new (ts : List TerminalID) : DisjointSet :=
  ⟨keysOf ts, id⟩

/-- The parent-chasing loop of `DisjointSet::find`, with explicit fuel
(the Rust loop runs unboundedly; under the forest invariant proved below it
terminates within `keys.length` steps). `none` models nontermination. -/
def findAux (p : TerminalID → TerminalID) : ℕ → TerminalID → Option TerminalID
  | 0, _ => none
  | fuel + 1, t => if p t = t then some t else findAux p fuel (p t)

/-- `DisjointSet::find`: chase parents until reaching a fixpoint. -/
def DisjointSet.find (s : DisjointSet) (t : TerminalID) : TerminalID :=
  (findAux s.parent (s.keys.length + 1) t).getD t

/-- `DisjointSet::merge`: point the root of `left` at the root of `right`. -/
def DisjointSet.merge (s : DisjointSet) (left right : TerminalID) : DisjointSet :=
  ⟨s.keys, Function.update s.parent (s.find left) (s.find right)⟩

/-- Fold a list of merges over a disjoint set: the constructor's
`for (left, right) in &circuit.terminal_edges { merge }` loop. -/
def mergeAll (s : DisjointSet) (ms : List (TerminalID × TerminalID)) : DisjointSet :=
  ms.foldl (fun s' pr => s'.merge pr.1 pr.2) s

/-- `DisjointSet::into_terminal_groups`: bucket every key by its root.
The Rust code iterates the hash map in unspecified order; the model uses
first-occurrence order of the roots along the key list, and keys inside a
group appear in key-list order. -/
def DisjointSet.into_terminal_groups (s : DisjointSet) : List (List TerminalID) :=
  (keysOf (s.keys.map s.find)).map (fun r => s.keys.filter (fun t => s.find t = r))

/-- The reflexive-symmetric-transitive closure of a relation; used to state
the union-find contract. -/
inductive EqClosure (R : TerminalID → TerminalID → Prop) : TerminalID → TerminalID → Prop
  | base {a b : TerminalID} : R a b → EqClosure R a b
  | refl (a : TerminalID) : EqClosure R a a
  | symm {a b : TerminalID} : EqClosure R a b → EqClosure R b a
  | trans {a b c : TerminalID} : EqClosure R a b → EqClosure R b c → EqClosure R a c

/-- The disjoint set obtained by seeding with `ts` and then merging every
pair in `ms`, in order. -/
def dsRun (ts : List TerminalID) (ms : List (TerminalID × TerminalID)) : DisjointSet :=
  mergeAll (DisjointSet.new ts) ms

/-! ## Dense vectors and error model -/

/-- `DVector::zeros`. -/
def zeros (n : ℕ) : List ℚ :=
  List.replicate n 0

/-- The unit vector with a `1` at index `i` (out-of-range `i` gives the zero
vector, as in the source where indices are always in range). -/
def basis (n i : ℕ) : List ℚ :=
  (List.range n).map (fun j => if j = i then 1 else 0)

/-- Componentwise vector addition (`+=` on `DVector`). -/
def vadd (a b : List ℚ) : List ℚ :=
  List.zipWith (· + ·) a b

/-- Componentwise vector subtraction. -/
def vsub (a b : List ℚ) : List ℚ :=
  List.zipWith (· - ·) a b

/-- Division of a vector by a scalar. -/
def vdiv (a : List ℚ) (r : ℚ) : List ℚ :=
  a.map (· / r)

/-- Vector negation. -/
def vneg (a : List ℚ) : List ℚ :=
  a.map (fun x => -x)

/-- Scaling of a vector by a scalar. -/
def vscale (c : ℚ) (a : List ℚ) : List ℚ :=
  a.map (fun x => c * x)

/-- Entry `i` of a vector (0 when out of range; all source accesses are in
range). -/
def entry (v : List ℚ) (i : ℕ) : ℚ :=
  v.getD i 0

/-- The panic sites of the simulator, used as the error type of the model.
Each constructor corresponds to one way the Rust code can panic. -/
inductive SimError where
  /-- `self.terminal_to_node[terminal_id]` on a terminal absent from the map. -/
  | missingTerminal : SimError
  /-- `get_other_terminal` on a terminal index outside {0, 1}. -/
  | invalidTerminal : SimError
  /-- `self.circuit.components[i]` with `i` out of range. -/
  | missingComponent : SimError
  /-- vgenerator bookkeeping panics (`self.vgenerators[i]` out of range,
  `component_id_to_vgenerator_id` lookup, or the
  `Voltage generator expected` panic in `get_result_vector`). -/
  | missingVGenerator : SimError
  /-- `mat.lu().solve(&result).unwrap()` on a singular system. -/
  | singular : SimError
  /-- `DMatrix::from_rows` on an empty row list (circuits with zero unknowns). -/
  | emptyMatrix : SimError
deriving DecidableEq, Repr

deriving instance DecidableEq for Except

/-- A `for` loop threading an accumulator, where the body can panic. -/
def foldE (f : σ → α → Except SimError σ) : σ → List α → Except SimError σ
  | s, [] => .ok s
  | s, a :: as => match f s a with
    | .error e => .error e
    | .ok s' => foldE f s' as

/-- A `for` loop collecting one result per element, where the body can panic. -/
def mapE (f : α → Except SimError β) : List α → Except SimError (List β)
  | [] => .ok []
  | a :: as => match f a with
    | .error e => .error e
    | .ok b => match mapE f as with
      | .error e => .error e
      | .ok bs => .ok (b :: bs)

/-! ## The simulator (`src/simulator.rs`) -/

/-- The `Simulator` struct.  `terminal_to_node` and
`component_id_to_vgenerator_id` are `HashMap`s in the source, modelled as
`Option`-valued lookup functions. -/
structure Simulator where
  circuit : Circuit
  n : ℕ
  component_id_to_vgenerator_id : ℕ → Option ℕ
  nodes : List (List TerminalID)
  terminal_to_node : TerminalID → Option ℕ
  vgenerators : List ℕ

/-- The `terminal_ids` list built in `Simulator::new`: both endpoints of
every edge, in order. -/
def seedsOf (c : Circuit) : List TerminalID :=
  c.terminal_edges.flatMap (fun e => [e.1, e.2])

/-- The disjoint set built in `Simulator::new`: seed with all edge endpoints,
then merge every edge. -/
def dsOf (c : Circuit) : DisjointSet :=
  mergeAll (DisjointSet.new (seedsOf c)) c.terminal_edges

/-- The node groups computed in `Simulator::new`. -/
def nodesOf (c : Circuit) : List (List TerminalID) :=
  (dsOf c).into_terminal_groups

/-- The `vgenerators` list of `Simulator::new`: indices of the voltage
generator components, in declaration order. -/
def vgensOf (c : Circuit) : List ℕ :=
  c.components.enum.filterMap (fun p =>
    match p.2 with
    | Components.VoltageGenerator _ => some p.1
    | Components.Resistor _ => none)

/-- The `terminal_id_to_node_id` map of `Simulator::new`. -/
def t2nOf (c : Circuit) (t : TerminalID) : Option ℕ :=
  ((nodesOf c).enum.find? (fun p => decide (t ∈ p.2))).map (fun p => p.1)

/-- The `component_id_to_vgenerator_id` map of `Simulator::new`. -/
def c2vOf (c : Circuit) (cid : ℕ) : Option ℕ :=
  ((vgensOf c).enum.find? (fun p => decide (p.2 = cid))).map (fun p => p.1)

/-- `Simulator::new`.  The source computes `n = nodes.len() - 1 +
vgenerators.len()` on `usize`; when the circuit has no edges there are no
node groups and the subtraction underflows, panicking (in a debug build).
The panic is modelled as `none`; in every other case the constructor
unconditionally succeeds (it performs no validation). -/
def Simulator.new (c : Circuit) : Option Simulator :=
  if (nodesOf c).length = 0 then none
  else some
    { circuit := c
      n := (nodesOf c).length - 1 + (vgensOf c).length
      component_id_to_vgenerator_id := c2vOf c
      nodes := nodesOf c
      terminal_to_node := t2nOf c
      vgenerators := vgensOf c }

/-- `Simulator::get_other_terminal`; panics on a terminal index outside
{0, 1}, modelled as `none`. -/
def get_other_terminal (t : TerminalID) : Option TerminalID :=
  if t.idx = 0 then some ⟨t.component_id, 1⟩
  else if t.idx = 1 then some ⟨t.component_id, 0⟩
  else none

/-- `Simulator::unknown_node_voltage`: the ground node (id 0) has the zero
vector, node `k ≥ 1` has the unit vector at index `k - 1`. -/
def unknown_node_voltage (s : Simulator) (node_id : ℕ) : List ℚ :=
  if node_id = 0 then zeros s.n else basis s.n (node_id - 1)

/-- `Simulator::unknown_vgenerator_intensity`: unit vector at index
`nodes.len() - 1 + vgenerator_id`. -/
def unknown_vgenerator_intensity (s : Simulator) (vgenerator_id : ℕ) : List ℚ :=
  basis s.n (s.nodes.length - 1 + vgenerator_id)

/-- `Simulator::get_component_intensity_vector`: the current flowing into the
component through the given terminal, as a vector of coefficients over the
unknowns.  For a resistor this is `(V(own node) - V(other node)) / R`
regardless of which terminal was given; for a voltage generator it is the
generator's current unknown, negated on terminal 0. -/
def get_component_intensity_vector (s : Simulator) (output_terminal_id : TerminalID) :
    Except SimError (List ℚ) :=
  match s.circuit.components[output_terminal_id.component_id]? with
  | none => .error .missingComponent
  | some component =>
    match get_other_terminal output_terminal_id with
    | none => .error .invalidTerminal
    | some input_terminal_id =>
      match component with
      | Components.Resistor resistance =>
        match s.terminal_to_node output_terminal_id with
        | none => .error .missingTerminal
        | some node_output =>
          match s.terminal_to_node input_terminal_id with
          | none => .error .missingTerminal
          | some node_input =>
            .ok (vdiv (vsub (unknown_node_voltage s node_output)
              (unknown_node_voltage s node_input)) resistance)
      | Components.VoltageGenerator _ =>
        match s.component_id_to_vgenerator_id output_terminal_id.component_id with
        | none => .error .missingVGenerator
        | some generator_id =>
          .ok (if output_terminal_id.idx = 1 then unknown_vgenerator_intensity s generator_id
               else vneg (unknown_vgenerator_intensity s generator_id))

/-- One iteration of the `result += intensity` loop of
`Simulator::get_node_intensity`. -/
def intensityStep (s : Simulator) (acc : List ℚ) (t : TerminalID) : Except SimError (List ℚ) :=
  match get_component_intensity_vector s t with
  | .error e => .error e
  | .ok intensity => .ok (vadd acc intensity)

/-- `Simulator::get_node_intensity`: sum of the intensity contributions of
every terminal belonging to the node. -/
def get_node_intensity (s : Simulator) (node_id : ℕ) : Except SimError (List ℚ) :=
  foldE (intensityStep s) (zeros s.n) (s.nodes.getD node_id [])

/-- `Simulator::get_vgenerator_voltage`: the row `V(node of terminal 1) -
V(node of terminal 0)` of a voltage generator. -/
def get_vgenerator_voltage (s : Simulator) (vgenerator_id : ℕ) : Except SimError (List ℚ) :=
  match s.vgenerators[vgenerator_id]? with
  | none => .error .missingVGenerator
  | some component_id =>
    match s.terminal_to_node ⟨component_id, 0⟩ with
    | none => .error .missingTerminal
    | some node_input =>
      match s.terminal_to_node ⟨component_id, 1⟩ with
      | none => .error .missingTerminal
      | some node_output =>
        .ok (vsub (unknown_node_voltage s node_output) (unknown_node_voltage s node_input))

/-- `Simulator::get_matrix`: KCL rows for nodes `1 .. nodes.len()`, then one
constraint row per voltage generator.  `DMatrix::from_rows` panics on an
empty row list, modelled as the `emptyMatrix` error. -/
def get_matrix (s : Simulator) : Except SimError (List (List ℚ)) :=
  match mapE (get_node_intensity s) (List.range' 1 (s.nodes.length - 1)) with
  | .error e => .error e
  | .ok kclRows =>
    match mapE (get_vgenerator_voltage s) (List.range s.vgenerators.length) with
    | .error e => .error e
    | .ok genRows =>
      if kclRows ++ genRows = [] then .error .emptyMatrix else .ok (kclRows ++ genRows)

/-- One iteration of the write loop of `Simulator::get_result_vector`:
zero at every KCL row (the vector starts as zeros), the source voltage `E_j`
at row `nodes.len() - 1 + j`.  The impossible `Voltage generator expected`
panic is modelled as the `missingVGenerator` error. -/
def resultStep (s : Simulator) (acc : List ℚ) (p : ℕ × ℕ) : Except SimError (List ℚ) :=
  match s.circuit.components[p.2]? with
  | some (Components.VoltageGenerator voltage) =>
    .ok (acc.set (s.nodes.length - 1 + p.1) voltage)
  | _ => .error .missingVGenerator

/-- `Simulator::get_result_vector` (continued): the loop writing each source
voltage at its row. -/
def get_result_vector (s : Simulator) : Except SimError (List ℚ) :=
  foldE (resultStep s) (zeros s.n) s.vgenerators.enum

/-! ## The external dense solver

Modelled from the spec: the linear solve (`nalgebra`'s `mat.lu().solve(&y)`,
an LU factorization with partial pivoting) is an external collaborator, not
part of `src/`.  Per the spec (sections 1, 4.3, 6) it returns the solution of
`M·X = Y` or signals singularity; over exact rationals this is Gaussian
elimination, returning `none` exactly when some pivot column is entirely
zero. -/

/-- Dot product of two vectors. -/
def dot (a b : List ℚ) : ℚ :=
  (List.zipWith (· * ·) a b).sum

/-- Find a row with a nonzero leading coefficient; return it together with
the remaining rows. -/
def findPivot : List (List ℚ) → Option (List ℚ × List (List ℚ))
  | [] => none
  | r :: rs =>
    if r.headD 0 ≠ 0 then some (r, rs)
    else match findPivot rs with
      | none => none
      | some (p, rest) => some (p, r :: rest)

/-- Gaussian elimination with back substitution on an augmented matrix
(`k` unknowns, each row `k` coefficients followed by the right-hand side). -/
def gaussSolve : ℕ → List (List ℚ) → Option (List ℚ)
  | 0, _ => some []
  | k + 1, rows =>
    match findPivot rows with
    | none => none
    | some (p, rest) =>
      let pn := (vdiv p (p.headD 1)).tail
      let rest' := rest.map (fun r => vsub r.tail (vscale (r.headD 0) pn))
      match gaussSolve k rest' with
      | none => none
      | some xs => some ((pn.getLastD 0 - dot pn.dropLast xs) :: xs)

/-- Modelled from the spec: the external LU solve.  Returns `X` with
`M·X = Y`, or `none` when `M` is singular. -/
def lu_solve (m : List (List ℚ)) (y : List ℚ) : Option (List ℚ) :=
  gaussSolve m.length (List.zipWith (fun row yi => row ++ [yi]) m y)

/-- `Simulator::simulate`: assemble the system, solve it (`unwrap` on the
solver's result panics on singular systems, modelled as the `singular`
error), then decode the per-component voltage `V(terminal 1) - V(terminal 0)`
for every component in declaration order.  The source prints the readings;
the model returns them as a list. -/
def simulate (s : Simulator) : Except SimError (List ℚ) :=
  match get_matrix s with
  | .error e => .error e
  | .ok mat =>
    match get_result_vector s with
    | .error e => .error e
    | .ok result =>
      match lu_solve mat result with
      | none => .error .singular
      | some unknowns =>
        mapE (fun component_id =>
            match s.terminal_to_node ⟨component_id, 0⟩ with
            | none => .error .missingTerminal
            | some node_input =>
              match s.terminal_to_node ⟨component_id, 1⟩ with
              | none => .error .missingTerminal
              | some node_output =>
                .ok ((if node_output ≥ 1 then entry unknowns (node_output - 1) else 0) -
                  (if node_input ≥ 1 then entry unknowns (node_input - 1) else 0)))
          (List.range s.circuit.components.length)

/-- Append a duplicate copy of an edge to a circuit (spec section 8,
invariant 5). -/
def dupCircuit (c : Circuit) (e : TerminalID × TerminalID) : Circuit :=
  ⟨c.components, c.terminal_edges ++ [e]⟩

/-- Node lookup of a fixed terminal, as a named function (used to state
closed facts about concrete circuits). -/
def lookupIn (t : TerminalID) (s : Simulator) : Option ℕ :=
  s.terminal_to_node t

/-- The intensity-vector contribution of one terminal in the simulator built
from a circuit (used to state closed facts about concrete circuits). -/
def contribAt (c : Circuit) (t : TerminalID) : Option (Except SimError (List ℚ)) :=
  (Simulator.new c).map (fun s => get_component_intensity_vector s t)

/-! ## Concrete circuits used as witnesses and counterexamples -/

/-- A series loop: a 10 V source feeding a 2 Ω resistor. -/
def cLoop : Circuit :=
  ⟨[Components.VoltageGenerator 10, Components.Resistor 2],
   [(⟨0, 1⟩, ⟨1, 0⟩), (⟨1, 1⟩, ⟨0, 0⟩)]⟩

/-- A series loop of a 10 V source and two resistors (2 Ω and 4 Ω). -/
def cSeries : Circuit :=
  ⟨[Components.VoltageGenerator 10, Components.Resistor 2, Components.Resistor 4],
   [(⟨0, 1⟩, ⟨1, 0⟩), (⟨1, 1⟩, ⟨2, 0⟩), (⟨2, 1⟩, ⟨0, 0⟩)]⟩

/-- A circuit containing a resistor with `R = 0` (spec scenario S6). -/
def cZeroR : Circuit :=
  ⟨[Components.Resistor 0], [(⟨0, 0⟩, ⟨0, 1⟩)]⟩

/-- A shorted 4 V source (spec scenario S5): a singular system. -/
def cShort : Circuit :=
  ⟨[Components.VoltageGenerator 4], [(⟨0, 0⟩, ⟨0, 1⟩)]⟩

/-- A working loop (4 V source and a 5 Ω resistor) plus a 10 Ω resistor
(component 1) neither of whose terminals appears in any edge. -/
def cDangling : Circuit :=
  ⟨[Components.VoltageGenerator 4, Components.Resistor 10, Components.Resistor 5],
   [(⟨0, 1⟩, ⟨2, 0⟩), (⟨2, 1⟩, ⟨0, 0⟩)]⟩

/-- A single self-looped resistor: one node, no sources, zero unknowns. -/
def cSelfLoop : Circuit :=
  ⟨[Components.Resistor 5], [(⟨0, 0⟩, ⟨0, 0⟩)]⟩

/-- A circuit with no edges at all. -/
def cNoEdges : Circuit :=
  ⟨[Components.Resistor 5], []⟩

/-! ## Invariant predicates for the union-find proofs -/

/-- A terminal is a root of the parent map when it is its own parent. -/
def IsRoot (p : TerminalID → TerminalID) (t : TerminalID) : Prop :=
  p t = t

instance (p : TerminalID → TerminalID) (t : TerminalID) : Decidable (IsRoot p t) :=
  decidable_of_iff (p t = t) Iff.rfl

/-- `r` is a root reachable from `t` by chasing parents. -/
def ReachRoot (p : TerminalID → TerminalID) (t r : TerminalID) : Prop :=
  IsRoot p r ∧ ∃ k, p^[k] t = r

/-- The forest invariant of the disjoint set: the parent map stays inside the
key set, is the identity outside it, and every key reaches a root. -/
structure GoodDS (s : DisjointSet) : Prop where
  closed : ∀ t ∈ s.keys, s.parent t ∈ s.keys
  out : ∀ t, t ∉ s.keys → s.parent t = t
  reach : ∀ t ∈ s.keys, ∃ k, IsRoot s.parent (s.parent^[k] t)

/-- `find` agreement characterizes the equivalence closure of `R`. -/
def FindChar (s : DisjointSet) (R : TerminalID → TerminalID → Prop) : Prop :=
  ∀ a ∈ s.keys, ∀ b ∈ s.keys, (s.find a = s.find b ↔ EqClosure R a b)

/-- All pairs of `R` lie in the key set. -/
def RelInKeys (s : DisjointSet) (R : TerminalID → TerminalID → Prop) : Prop :=
  ∀ a b, R a b → a ∈ s.keys ∧ b ∈ s.keys

/-- The full invariant carried through a merge sequence. -/
def DSInv (s : DisjointSet) (R : TerminalID → TerminalID → Prop) : Prop :=
  GoodDS s ∧ RelInKeys s R ∧ FindChar s R

/-! ## Basic lemmas about vectors and lists -/

theorem length_zeros (n : ℕ) : (zeros n).length = n := by
  simp [zeros]

theorem entry_zeros (n i : ℕ) : entry (zeros n) i = 0 := by
  unfold entry zeros
  rcases lt_or_le i n with h | h
  · rw [List.getD_eq_getElem?_getD, List.getElem?_replicate]
    simp [h]
  · rw [List.getD_eq_getElem?_getD, List.getElem?_eq_none (by simpa using h)]
    rfl

theorem length_basis (n i : ℕ) : (basis n i).length = n := by
  simp [basis]

theorem entry_basis (n j i : ℕ) :
    entry (basis n j) i = if i < n ∧ i = j then 1 else 0 := by
  unfold entry basis
  rcases lt_or_le i n with h | h
  · rw [List.getD_eq_getElem?_getD, List.getElem?_map, List.getElem?_range h]
    by_cases hij : i = j
    · subst hij
      simp [h]
    · simp [hij, h]
  · rw [List.getD_eq_getElem?_getD,
      List.getElem?_eq_none (by simpa using h)]
    have : ¬ (i < n ∧ i = j) := fun hc => absurd hc.1 (not_lt.mpr h)
    simp [this]

theorem entry_zipWith (f : ℚ → ℚ → ℚ) (hf : f 0 0 = 0) :
    ∀ (a b : List ℚ), a.length = b.length →
      ∀ i, entry (List.zipWith f a b) i = f (entry a i) (entry b i)
  | [], [], _, i => by simp [entry, hf]
  | x :: xs, y :: ys, h, 0 => by simp [entry]
  | x :: xs, y :: ys, h, i + 1 => by
    have h' : xs.length = ys.length := by simpa using h
    simpa [entry] using entry_zipWith f hf xs ys h' i
  | [], _ :: _, h, _ => by simp at h
  | _ :: _, [], h, _ => by simp at h

theorem entry_vadd (a b : List ℚ) (h : a.length = b.length) (i : ℕ) :
    entry (vadd a b) i = entry a i + entry b i :=
  entry_zipWith (· + ·) (by norm_num) a b h i

theorem entry_vsub (a b : List ℚ) (h : a.length = b.length) (i : ℕ) :
    entry (vsub a b) i = entry a i - entry b i :=
  entry_zipWith (· - ·) (by norm_num) a b h i

theorem entry_map (f : ℚ → ℚ) (hf : f 0 = 0) :
    ∀ (a : List ℚ) (i : ℕ), entry (a.map f) i = f (entry a i)
  | [], i => by simp [entry, hf]
  | x :: xs, 0 => by simp [entry]
  | x :: xs, i + 1 => by simpa [entry] using entry_map f hf xs i

theorem entry_vdiv (a : List ℚ) (r : ℚ) (i : ℕ) :
    entry (vdiv a r) i = entry a i / r :=
  entry_map (· / r) (by norm_num) a i

theorem entry_vneg (a : List ℚ) (i : ℕ) :
    entry (vneg a) i = -(entry a i) :=
  entry_map (fun x => -x) (by norm_num) a i

theorem length_vadd (a b : List ℚ) (h : a.length = b.length) :
    (vadd a b).length = a.length := by
  simp [vadd, h]

theorem length_vsub (a b : List ℚ) (h : a.length = b.length) :
    (vsub a b).length = a.length := by
  simp [vsub, h]

theorem length_vdiv (a : List ℚ) (r : ℚ) : (vdiv a r).length = a.length := by
  simp [vdiv]

theorem length_vneg (a : List ℚ) : (vneg a).length = a.length := by
  simp [vneg]

theorem entry_set (v : List ℚ) (j : ℕ) (x : ℚ) (i : ℕ) :
    entry (v.set j x) i = if j = i ∧ i < v.length then x else entry v i := by
  unfold entry
  rw [List.getD_eq_getElem?_getD, List.getD_eq_getElem?_getD, List.getElem?_set]
  by_cases h : j = i
  · subst h
    by_cases h2 : j < v.length
    · simp [h2]
    · simp only [if_pos rfl, if_neg h2, false_and, and_false]
      rw [List.getElem?_eq_none (le_of_not_lt h2)]
      simp [h2]
  · simp [h]

/-! ## Lemmas about `keysOf` -/

theorem mem_insertKey (ks : List TerminalID) (t a : TerminalID) :
    a ∈ insertKey ks t ↔ a ∈ ks ∨ a = t := by
  unfold insertKey
  by_cases h : t ∈ ks
  · simp only [if_pos h]
    constructor
    · exact Or.inl
    · rintro (ha | rfl)
      · exact ha
      · exact h
  · simp [if_neg h]

theorem mem_foldl_insertKey :
    ∀ (l acc : List TerminalID) (a : TerminalID),
      a ∈ l.foldl insertKey acc ↔ a ∈ acc ∨ a ∈ l
  | [], acc, a => by simp
  | t :: ts, acc, a => by
    rw [List.foldl_cons, mem_foldl_insertKey ts (insertKey acc t) a, mem_insertKey]
    constructor
    · rintro ((h | rfl) | h)
      · exact Or.inl h
      · exact Or.inr (List.mem_cons_self _ _)
      · exact Or.inr (List.mem_cons_of_mem _ h)
    · rintro (h | h)
      · exact Or.inl (Or.inl h)
      · rcases List.mem_cons.mp h with rfl | h
        · exact Or.inl (Or.inr rfl)
        · exact Or.inr h

theorem mem_keysOf (l : List TerminalID) (a : TerminalID) :
    a ∈ keysOf l ↔ a ∈ l := by
  unfold keysOf
  rw [mem_foldl_insertKey]
  simp

theorem keysOf_append_mem (l : List TerminalID) (x y : TerminalID)
    (hx : x ∈ l) (hy : y ∈ l) : keysOf (l ++ [x, y]) = keysOf l := by
  unfold keysOf
  rw [List.foldl_append, List.foldl_cons, List.foldl_cons, List.foldl_nil]
  have hx' : x ∈ l.foldl insertKey [] := (mem_foldl_insertKey l [] x).mpr (Or.inr hx)
  have h1 : insertKey (l.foldl insertKey []) x = l.foldl insertKey [] := by
    simp [insertKey, hx']
  rw [h1]
  have hy' : y ∈ l.foldl insertKey [] := (mem_foldl_insertKey l [] y).mpr (Or.inr hy)
  simp [insertKey, hy']

/-! ## Lemmas about `mapE` and `foldE` -/

theorem mapE_ok_length {f : α → Except SimError β} :
    ∀ {l : List α} {ys : List β}, mapE f l = .ok ys → ys.length = l.length
  | [], ys, h => by
    simp only [mapE] at h
    cases h
    rfl
  | a :: as, ys, h => by
    simp only [mapE] at h
    cases hfa : f a with
    | error e => rw [hfa] at h; cases h
    | ok b =>
      rw [hfa] at h
      cases hrest : mapE f as with
      | error e => rw [hrest] at h; cases h
      | ok bs =>
        rw [hrest] at h
        cases h
        simpa using mapE_ok_length hrest

theorem mapE_ok_get {f : α → Except SimError β} :
    ∀ {l : List α} {ys : List β}, mapE f l = .ok ys →
      ∀ (i : ℕ) (a : α), l[i]? = some a → ∃ y, f a = .ok y ∧ ys[i]? = some y
  | [], ys, h, i, a, ha => by simp at ha
  | x :: xs, ys, h, i, a, ha => by
    simp only [mapE] at h
    cases hfx : f x with
    | error e => rw [hfx] at h; cases h
    | ok b =>
      rw [hfx] at h
      cases hrest : mapE f xs with
      | error e => rw [hrest] at h; cases h
      | ok bs =>
        rw [hrest] at h
        cases h
        cases i with
        | zero =>
          rw [List.getElem?_cons_zero, Option.some_inj] at ha
          subst ha
          exact ⟨b, hfx, List.getElem?_cons_zero⟩
        | succ i =>
          rw [List.getElem?_cons_succ] at ha
          obtain ⟨y, hy1, hy2⟩ := mapE_ok_get hrest i a ha
          exact ⟨y, hy1, by rw [List.getElem?_cons_succ]; exact hy2⟩

/-! ## Union-find: the forest invariant and `find` characterization -/

theorem iterate_mem {p : TerminalID → TerminalID} {ks : List TerminalID}
    (hc : ∀ t ∈ ks, p t ∈ ks) {t : TerminalID} (ht : t ∈ ks) :
    ∀ k, p^[k] t ∈ ks
  | 0 => ht
  | k + 1 => by
    rw [Function.iterate_succ_apply']
    exact hc _ (iterate_mem hc ht k)

theorem isRoot_iterate {p : TerminalID → TerminalID} {r : TerminalID} (h : IsRoot p r) :
    ∀ k, p^[k] r = r
  | 0 => rfl
  | k + 1 => by
    rw [Function.iterate_succ_apply, h]
    exact isRoot_iterate h k

theorem reach_eq_of_le {p : TerminalID → TerminalID} {t r1 r2 : TerminalID} {i j : ℕ}
    (hij : i ≤ j) (hi : p^[i] t = r1) (hr1 : IsRoot p r1) (hj : p^[j] t = r2) : r2 = r1 := by
  have h1 : p^[j] t = p^[j - i] (p^[i] t) := by
    rw [← Function.iterate_add_apply, Nat.sub_add_cancel hij]
  rw [hi, isRoot_iterate hr1] at h1
  rw [← hj, h1]

theorem reachRoot_unique {p : TerminalID → TerminalID} {t r1 r2 : TerminalID}
    (h1 : ReachRoot p t r1) (h2 : ReachRoot p t r2) : r1 = r2 := by
  obtain ⟨hr1, i, hi⟩ := h1
  obtain ⟨hr2, j, hj⟩ := h2
  rcases le_total i j with h | h
  · exact (reach_eq_of_le h hi hr1 hj).symm ▸ rfl
  · exact reach_eq_of_le h hj hr2 hi

theorem findAux_of_root {p : TerminalID → TerminalID} {t : TerminalID} (h : p t = t)
    (fuel : ℕ) : findAux p (fuel + 1) t = some t := by
  simp [findAux, h]

theorem findAux_some {p : TerminalID → TerminalID} :
    ∀ (fuel : ℕ) (t : TerminalID), (∃ k, k < fuel ∧ IsRoot p (p^[k] t)) →
      ∃ r, findAux p fuel t = some r ∧ ReachRoot p t r
  | 0, _, h => absurd h.choose_spec.1 (Nat.not_lt_zero _)
  | fuel + 1, t, ⟨k, hk, hroot⟩ => by
    by_cases hpt : p t = t
    · exact ⟨t, findAux_of_root hpt fuel, hpt, 0, rfl⟩
    · cases k with
      | zero => exact absurd hroot hpt
      | succ k =>
        have hroot' : IsRoot p (p^[k] (p t)) := by
          rw [← Function.iterate_succ_apply]
          exact hroot
        obtain ⟨r, hfind, hisr, k', hk'⟩ :=
          findAux_some fuel (p t) ⟨k, Nat.lt_of_succ_lt_succ hk, hroot'⟩
        refine ⟨r, ?_, hisr, k' + 1, ?_⟩
        · simp [findAux, hpt, hfind]
        · rw [Function.iterate_succ_apply]
          exact hk'

theorem reach_bound {p : TerminalID → TerminalID} {ks : List TerminalID}
    (hc : ∀ t ∈ ks, p t ∈ ks) {t : TerminalID} (ht : t ∈ ks)
    (h : ∃ k, IsRoot p (p^[k] t)) :
    ∃ k, k < ks.length ∧ IsRoot p (p^[k] t) := by
  have hk : IsRoot p (p^[Nat.find h] t) := Nat.find_spec h
  set k := Nat.find h with hkdef
  have hmin : ∀ i, i < k → ¬ IsRoot p (p^[i] t) := fun i hi => Nat.find_min h hi
  have aux : ∀ i j, i < j → j ≤ k → p^[i] t ≠ p^[j] t := by
    intro i j hij hjk heq
    have h1 : p^[k] t = p^[(k - j) + i] t := by
      conv_lhs => rw [← Nat.sub_add_cancel hjk]
      rw [Function.iterate_add_apply, ← heq, ← Function.iterate_add_apply]
    rw [h1] at hk
    exact hmin _ (by omega) hk
  have hinj : Set.InjOn (fun i => p^[i] t) (Finset.range (k + 1) : Finset ℕ) := by
    intro i hi j hj hij
    simp only [Finset.coe_range, Set.mem_Iio] at hi hj
    by_contra hne
    rcases Nat.lt_or_ge i j with hlt | hge
    · exact aux i j hlt (by omega) hij
    · have hlt : j < i := by omega
      exact aux j i hlt (by omega) hij.symm
  have hmapsto : ∀ i ∈ Finset.range (k + 1), p^[i] t ∈ ks.toFinset := by
    intro i _
    exact List.mem_toFinset.mpr (iterate_mem hc ht i)
  have hcard : (Finset.range (k + 1)).card ≤ ks.toFinset.card :=
    Finset.card_le_card_of_injOn _ hmapsto hinj
  rw [Finset.card_range] at hcard
  have : k < ks.length := by
    have := List.toFinset_card_le ks
    omega
  exact ⟨k, this, hk⟩

theorem find_of_root {s : DisjointSet} {t : TerminalID} (h : IsRoot s.parent t) :
    s.find t = t := by
  unfold DisjointSet.find
  rw [findAux_of_root h]
  rfl

theorem find_spec {s : DisjointSet} (G : GoodDS s) {t : TerminalID} (ht : t ∈ s.keys) :
    ReachRoot s.parent t (s.find t) := by
  obtain ⟨k, hk, hroot⟩ := reach_bound G.closed ht (G.reach t ht)
  obtain ⟨r, hfind, hreach⟩ := findAux_some (s.keys.length + 1) t ⟨k, by omega, hroot⟩
  unfold DisjointSet.find
  rw [hfind]
  exact hreach

theorem find_mem {s : DisjointSet} (G : GoodDS s) {t : TerminalID} (ht : t ∈ s.keys) :
    s.find t ∈ s.keys := by
  obtain ⟨_, k, hk⟩ := find_spec G ht
  rw [← hk]
  exact iterate_mem G.closed ht k

theorem find_isRoot {s : DisjointSet} (G : GoodDS s) {t : TerminalID} (ht : t ∈ s.keys) :
    IsRoot s.parent (s.find t) :=
  (find_spec G ht).1

theorem find_eq_of_reach {s : DisjointSet} (G : GoodDS s) {t r : TerminalID}
    (ht : t ∈ s.keys) (h : ReachRoot s.parent t r) : s.find t = r :=
  reachRoot_unique (find_spec G ht) h

theorem merge_keys (s : DisjointSet) (l r : TerminalID) : (s.merge l r).keys = s.keys :=
  rfl

theorem merge_parent (s : DisjointSet) (l r : TerminalID) :
    (s.merge l r).parent = Function.update s.parent (s.find l) (s.find r) :=
  rfl

theorem merge_self_eq {s : DisjointSet} (G : GoodDS s) {l r : TerminalID}
    (hl : l ∈ s.keys) (heq : s.find l = s.find r) : s.merge l r = s := by
  have hroot : s.parent (s.find l) = s.find l := find_isRoot G hl
  unfold DisjointSet.merge
  rw [← heq]
  have hupd : Function.update s.parent (s.find l) (s.find l) = s.parent := by
    nth_rewrite 2 [← hroot]
    exact Function.update_eq_self (s.find l) s.parent
  rw [hupd]

theorem reach_update {s : DisjointSet} (G : GoodDS s) {l r : TerminalID}
    (hl : l ∈ s.keys) (hr : r ∈ s.keys) {t : TerminalID} (ht : t ∈ s.keys) :
    ReachRoot (s.merge l r).parent t
      (if s.find t = s.find l then s.find r else s.find t) := by
  by_cases hlr : s.find l = s.find r
  · rw [merge_self_eq G hl hlr]
    by_cases h : s.find t = s.find l
    · rw [if_pos h, ← hlr, ← h]
      exact find_spec G ht
    · rw [if_neg h]
      exact find_spec G ht
  · have hex : ∃ k, IsRoot s.parent (s.parent^[k] t) := G.reach t ht
    have hkroot : IsRoot s.parent (s.parent^[Nat.find hex] t) := Nat.find_spec hex
    set k := Nat.find hex with hkdef
    have hmin : ∀ i, i < k → ¬ IsRoot s.parent (s.parent^[i] t) :=
      fun i hi => Nat.find_min hex hi
    have hfindt : s.parent^[k] t = s.find t :=
      (reachRoot_unique (find_spec G ht) ⟨hkroot, k, rfl⟩).symm
    have hrl_root : IsRoot s.parent (s.find l) := find_isRoot G hl
    have hrr_root : IsRoot s.parent (s.find r) := find_isRoot G hr
    have havoid : ∀ i, i < k → s.parent^[i] t ≠ s.find l := by
      intro i hik hieq
      exact hmin i hik (by rw [hieq]; exact hrl_root)
    have htransfer : ∀ i, i ≤ k → (s.merge l r).parent^[i] t = s.parent^[i] t := by
      intro i
      induction i with
      | zero => intro _; rfl
      | succ i ih =>
        intro hik
        rw [Function.iterate_succ_apply', Function.iterate_succ_apply',
          ih (Nat.le_of_succ_le hik), merge_parent]
        exact Function.update_noteq (havoid i (Nat.lt_of_succ_le hik)) _ _
    by_cases hcase : s.find t = s.find l
    · rw [if_pos hcase]
      refine ⟨?_, k + 1, ?_⟩
      · show (s.merge l r).parent (s.find r) = s.find r
        rw [merge_parent, Function.update_noteq (Ne.symm hlr)]
        exact hrr_root
      · rw [Function.iterate_succ_apply', htransfer k le_rfl, hfindt, hcase, merge_parent]
        exact Function.update_same _ _ _
    · rw [if_neg hcase]
      refine ⟨?_, k, ?_⟩
      · show (s.merge l r).parent (s.find t) = s.find t
        rw [merge_parent, Function.update_noteq hcase]
        exact find_isRoot G ht
      · rw [htransfer k le_rfl, hfindt]

theorem goodDS_merge {s : DisjointSet} (G : GoodDS s) {l r : TerminalID}
    (hl : l ∈ s.keys) (hr : r ∈ s.keys) : GoodDS (s.merge l r) := by
  constructor
  · intro t ht
    rw [merge_keys] at ht ⊢
    rw [merge_parent]
    by_cases h : t = s.find l
    · subst h
      rw [Function.update_same]
      exact find_mem G hr
    · rw [Function.update_noteq h]
      exact G.closed t ht
  · intro t ht
    rw [merge_keys] at ht
    rw [merge_parent, Function.update_noteq (fun h => ht (by rw [h]; exact find_mem G hl))]
    exact G.out t ht
  · intro t ht
    rw [merge_keys] at ht
    obtain ⟨hroot, k, hk⟩ := reach_update G hl hr ht
    exact ⟨k, by rw [hk]; exact hroot⟩

theorem find_merge {s : DisjointSet} (G : GoodDS s) {l r t : TerminalID}
    (hl : l ∈ s.keys) (hr : r ∈ s.keys) (ht : t ∈ s.keys) :
    (s.merge l r).find t = if s.find t = s.find l then s.find r else s.find t :=
  find_eq_of_reach (goodDS_merge G hl hr) (by rw [merge_keys]; exact ht)
    (reach_update G hl hr ht)

/-! ## `EqClosure` lemmas -/

theorem eqClosure_mono {R R' : TerminalID → TerminalID → Prop}
    (h : ∀ x y, R x y → R' x y) {a b : TerminalID} :
    EqClosure R a b → EqClosure R' a b := by
  intro hc
  induction hc with
  | base hab => exact .base (h _ _ hab)
  | refl a => exact .refl a
  | symm _ ih => exact .symm ih
  | trans _ _ ih1 ih2 => exact .trans ih1 ih2

theorem eqClosure_congr {R R' : TerminalID → TerminalID → Prop}
    (h : ∀ x y, R x y ↔ R' x y) (a b : TerminalID) :
    EqClosure R a b ↔ EqClosure R' a b :=
  ⟨eqClosure_mono (fun x y => (h x y).mp), eqClosure_mono (fun x y => (h x y).mpr)⟩

theorem eqClosure_false {a b : TerminalID} :
    EqClosure (fun _ _ => False) a b → a = b := by
  intro h
  induction h with
  | base hab => exact absurd hab id
  | refl a => rfl
  | symm _ ih => exact ih.symm
  | trans _ _ ih1 ih2 => exact ih1.trans ih2

theorem findChar_congr {s : DisjointSet} {R R' : TerminalID → TerminalID → Prop}
    (h : ∀ x y, R x y ↔ R' x y) (hc : FindChar s R) : FindChar s R' :=
  fun a ha b hb => (hc a ha b hb).trans (eqClosure_congr h a b)

/-! ## The invariant is preserved by merging -/

theorem dsInv_new (ts : List TerminalID) :
    DSInv (DisjointSet.new ts) (fun _ _ => False) := by
  refine ⟨⟨fun t ht => ht, fun t _ => rfl, fun t _ => ⟨0, rfl⟩⟩, ?_, ?_⟩
  · intro a b h
    exact absurd h id
  · intro a _ b _
    rw [@find_of_root (DisjointSet.new ts) a rfl, @find_of_root (DisjointSet.new ts) b rfl]
    exact ⟨fun h => h ▸ EqClosure.refl a, fun h => eqClosure_false h⟩

theorem dsInv_merge {s : DisjointSet} {R : TerminalID → TerminalID → Prop}
    (h : DSInv s R) {l r : TerminalID} (hl : l ∈ s.keys) (hr : r ∈ s.keys) :
    DSInv (s.merge l r) (fun x y => R x y ∨ (x = l ∧ y = r)) := by
  obtain ⟨G, hsub, hchar⟩ := h
  refine ⟨goodDS_merge G hl hr, ?_, ?_⟩
  · rintro a b (hab | ⟨rfl, rfl⟩)
    · exact hsub a b hab
    · exact ⟨hl, hr⟩
  · have aux : ∀ x y, EqClosure (fun x y => R x y ∨ (x = l ∧ y = r)) x y →
        (if s.find x = s.find l then s.find r else s.find x) =
          (if s.find y = s.find l then s.find r else s.find y) := by
      intro x y hc
      induction hc with
      | base hab =>
        rcases hab with hab | hab
        · obtain ⟨hx, hy⟩ := hsub _ _ hab
          rw [(hchar _ hx _ hy).mpr (.base hab)]
        · rw [hab.1, hab.2, if_pos rfl]
          by_cases h2 : s.find r = s.find l
          · rw [if_pos h2, h2]
          · rw [if_neg h2]
      | refl a => rfl
      | symm _ ih => exact ih.symm
      | trans _ _ ih1 ih2 => exact ih1.trans ih2
    intro a ha b hb
    rw [merge_keys] at ha hb
    rw [find_merge G hl hr ha, find_merge G hl hr hb]
    constructor
    · intro heq
      by_cases h1 : s.find a = s.find l <;> by_cases h2 : s.find b = s.find l
      · exact eqClosure_mono (fun x y => Or.inl)
          ((hchar a ha b hb).mp (h1.trans h2.symm))
      · rw [if_pos h1, if_neg h2] at heq
        have hal : EqClosure R a l := (hchar a ha l hl).mp h1
        have hbr : EqClosure R b r := (hchar b hb r hr).mp heq.symm
        exact .trans (eqClosure_mono (fun x y => Or.inl) hal)
          (.trans (.base (Or.inr ⟨rfl, rfl⟩))
            (.symm (eqClosure_mono (fun x y => Or.inl) hbr)))
      · rw [if_neg h1, if_pos h2] at heq
        have har : EqClosure R a r := (hchar a ha r hr).mp heq
        have hbl : EqClosure R b l := (hchar b hb l hl).mp h2
        exact .trans (eqClosure_mono (fun x y => Or.inl) har)
          (.trans (.symm (.base (Or.inr ⟨rfl, rfl⟩)))
            (.symm (eqClosure_mono (fun x y => Or.inl) hbl)))
      · rw [if_neg h1, if_neg h2] at heq
        exact eqClosure_mono (fun x y => Or.inl) ((hchar a ha b hb).mp heq)
    · exact aux a b

theorem mergeAll_keys :
    ∀ (ms : List (TerminalID × TerminalID)) (s : DisjointSet),
      (mergeAll s ms).keys = s.keys
  | [], _ => rfl
  | m :: ms, s => by
    show (mergeAll (s.merge m.1 m.2) ms).keys = s.keys
    rw [mergeAll_keys ms, merge_keys]

theorem dsInv_mergeAll :
    ∀ (ms : List (TerminalID × TerminalID)) (s : DisjointSet)
      (R : TerminalID → TerminalID → Prop),
      DSInv s R → (∀ pr ∈ ms, pr.1 ∈ s.keys ∧ pr.2 ∈ s.keys) →
      DSInv (mergeAll s ms) (fun x y => R x y ∨ (x, y) ∈ ms)
  | [], s, R, h, _ => by
    obtain ⟨G, hsub, hchar⟩ := h
    exact ⟨G, fun a b hab => hsub a b (by simpa using hab),
      findChar_congr (by simp) hchar⟩
  | (m1, m2) :: ms, s, R, h, hm => by
    have hm1 : m1 ∈ s.keys ∧ m2 ∈ s.keys := by
      simpa using hm (m1, m2) (List.mem_cons_self _ _)
    have h1 := dsInv_merge h hm1.1 hm1.2
    have hm' : ∀ pr ∈ ms, pr.1 ∈ (s.merge m1 m2).keys ∧ pr.2 ∈ (s.merge m1 m2).keys :=
      fun pr hpr => hm pr (List.mem_cons_of_mem _ hpr)
    have h2 := dsInv_mergeAll ms (s.merge m1 m2) _ h1 hm'
    show DSInv (mergeAll (s.merge m1 m2) ms) _
    obtain ⟨G, hsub, hchar⟩ := h2
    have hiff : ∀ x y, ((R x y ∨ (x = m1 ∧ y = m2)) ∨ (x, y) ∈ ms) ↔
        (R x y ∨ (x, y) ∈ (m1, m2) :: ms) := by
      intro x y
      rw [List.mem_cons, Prod.mk.injEq]
      tauto
    refine ⟨G, ?_, findChar_congr hiff hchar⟩
    intro a b hab
    exact hsub a b ((hiff a b).mpr hab)

theorem dsRun_inv (ts : List TerminalID) (ms : List (TerminalID × TerminalID))
    (hm : ∀ pr ∈ ms, pr.1 ∈ ts ∧ pr.2 ∈ ts) :
    DSInv (dsRun ts ms) (fun x y => (x, y) ∈ ms) := by
  have hm' : ∀ pr ∈ ms, pr.1 ∈ (DisjointSet.new ts).keys ∧
      pr.2 ∈ (DisjointSet.new ts).keys := by
    intro pr hpr
    exact ⟨(mem_keysOf ts pr.1).mpr (hm pr hpr).1, (mem_keysOf ts pr.2).mpr (hm pr hpr).2⟩
  obtain ⟨G, hsub, hchar⟩ := dsInv_mergeAll ms (DisjointSet.new ts) _ (dsInv_new ts) hm'
  exact ⟨G, fun a b hab => hsub a b (Or.inr hab), findChar_congr (by simp) hchar⟩

theorem dsRun_keys (ts : List TerminalID) (ms : List (TerminalID × TerminalID)) :
    (dsRun ts ms).keys = keysOf ts :=
  mergeAll_keys ms (DisjointSet.new ts)

/-! ## Helper lemmas about list indexing -/

theorem getElem?_some_lt {l : List α} {i : ℕ} {a : α} (h : l[i]? = some a) :
    i < l.length :=
  (List.getElem?_eq_some_iff.mp h).choose

theorem getElem?_some_mem {l : List α} {i : ℕ} {a : α} (h : l[i]? = some a) :
    a ∈ l := by
  obtain ⟨hlt, heq⟩ := List.getElem?_eq_some_iff.mp h
  rw [← heq]
  exact List.getElem_mem hlt

/-! ## Simulator constructor extraction -/

theorem new_fields {c : Circuit} {s : Simulator} (h : Simulator.new c = some s) :
    s.circuit = c ∧ s.n = (nodesOf c).length - 1 + (vgensOf c).length ∧
    s.nodes = nodesOf c ∧ s.terminal_to_node = t2nOf c ∧
    s.component_id_to_vgenerator_id = c2vOf c ∧ s.vgenerators = vgensOf c ∧
    0 < (nodesOf c).length := by
  unfold Simulator.new at h
  by_cases h0 : (nodesOf c).length = 0
  · rw [if_pos h0] at h
    exact Option.noConfusion h
  · rw [if_neg h0] at h
    injection h with h
    subst h
    exact ⟨rfl, rfl, rfl, rfl, rfl, rfl, Nat.pos_of_ne_zero h0⟩

theorem new_isSome_of_nodes {c : Circuit} (h : (nodesOf c).length ≠ 0) :
    (Simulator.new c).isSome = true := by
  unfold Simulator.new
  rw [if_neg h]
  rfl

/-! ## Lengths and entries of the unknown basis vectors -/

theorem length_unv (s : Simulator) (k : ℕ) :
    (unknown_node_voltage s k).length = s.n := by
  unfold unknown_node_voltage
  by_cases h : k = 0
  · rw [if_pos h, length_zeros]
  · rw [if_neg h, length_basis]

theorem length_uvi (s : Simulator) (g : ℕ) :
    (unknown_vgenerator_intensity s g).length = s.n :=
  length_basis _ _

theorem entry_unv (s : Simulator) (k i : ℕ) :
    entry (unknown_node_voltage s k) i =
      if k ≠ 0 ∧ i < s.n ∧ i = k - 1 then 1 else 0 := by
  unfold unknown_node_voltage
  by_cases h : k = 0
  · rw [if_pos h, entry_zeros]
    simp [h]
  · rw [if_neg h, entry_basis]
    by_cases h2 : i < s.n ∧ i = k - 1
    · rw [if_pos h2, if_pos ⟨h, h2⟩]
    · rw [if_neg h2, if_neg (fun hc => h2 ⟨hc.2.1, hc.2.2⟩)]

theorem entry_uvi (s : Simulator) (g i : ℕ) :
    entry (unknown_vgenerator_intensity s g) i =
      if i < s.n ∧ i = s.nodes.length - 1 + g then 1 else 0 :=
  entry_basis _ _ _

/-! ## The intensity vector of one terminal -/

theorem intensity_resistor {s : Simulator} {t ot : TerminalID} {res : ℚ} {k m : ℕ}
    (hcomp : s.circuit.components[t.component_id]? = some (Components.Resistor res))
    (hot : get_other_terminal t = some ot)
    (hk : s.terminal_to_node t = some k) (hm : s.terminal_to_node ot = some m) :
    get_component_intensity_vector s t =
      .ok (vdiv (vsub (unknown_node_voltage s k) (unknown_node_voltage s m)) res) := by
  unfold get_component_intensity_vector
  simp only [hcomp, hot, hk, hm]

theorem intensity_resistor_entry {s : Simulator} {t ot : TerminalID} {res : ℚ} {k m : ℕ}
    (hcomp : s.circuit.components[t.component_id]? = some (Components.Resistor res))
    (hot : get_other_terminal t = some ot)
    (hk : s.terminal_to_node t = some k) (hm : s.terminal_to_node ot = some m)
    {i : ℕ} (hi : i < s.n) {v : List ℚ}
    (hv : get_component_intensity_vector s t = .ok v) :
    entry v i = ((if k ≠ 0 ∧ i = k - 1 then 1 else 0) -
      (if m ≠ 0 ∧ i = m - 1 then 1 else 0)) / res := by
  rw [intensity_resistor hcomp hot hk hm] at hv
  injection hv with hv
  subst hv
  rw [entry_vdiv, entry_vsub _ _ (by rw [length_unv, length_unv]), entry_unv, entry_unv]
  have h1 : (k ≠ 0 ∧ i < s.n ∧ i = k - 1) ↔ (k ≠ 0 ∧ i = k - 1) := by
    constructor
    · exact fun hc => ⟨hc.1, hc.2.2⟩
    · exact fun hc => ⟨hc.1, hi, hc.2⟩
  have h2 : (m ≠ 0 ∧ i < s.n ∧ i = m - 1) ↔ (m ≠ 0 ∧ i = m - 1) := by
    constructor
    · exact fun hc => ⟨hc.1, hc.2.2⟩
    · exact fun hc => ⟨hc.1, hi, hc.2⟩
  rw [if_congr h1 rfl rfl, if_congr h2 rfl rfl]

theorem intensity_ok_length {s : Simulator} {t : TerminalID} {v : List ℚ}
    (h : get_component_intensity_vector s t = .ok v) : v.length = s.n := by
  unfold get_component_intensity_vector at h
  repeat' split at h
  all_goals try exact Except.noConfusion h
  all_goals injection h with h
  all_goals subst h
  · rw [length_vdiv, length_vsub _ _ (by rw [length_unv, length_unv]), length_unv]
  · exact length_uvi _ _
  · rw [length_vneg]
    exact length_uvi _ _

/-! ## The KCL rows -/

theorem foldE_intensityStep {s : Simulator} :
    ∀ {l : List TerminalID} {acc out : List ℚ},
      foldE (intensityStep s) acc l = .ok out →
      ∃ ivs, mapE (get_component_intensity_vector s) l = .ok ivs ∧
        out = ivs.foldl vadd acc
  | [], acc, out, h => by
    refine ⟨[], rfl, ?_⟩
    injection h with h
    rw [h]
    rfl
  | t :: l, acc, out, h => by
    rw [foldE] at h
    unfold intensityStep at h
    cases hiv : get_component_intensity_vector s t with
    | error e =>
      rw [hiv] at h
      exact Except.noConfusion h
    | ok iv =>
      rw [hiv] at h
      obtain ⟨ivs, hmap, hout⟩ := foldE_intensityStep h
      refine ⟨iv :: ivs, ?_, ?_⟩
      · rw [mapE, hiv, hmap]
      · rw [hout, List.foldl_cons]

theorem foldE_intensityStep_length {s : Simulator} :
    ∀ {l : List TerminalID} {acc out : List ℚ},
      foldE (intensityStep s) acc l = .ok out → acc.length = s.n → out.length = s.n
  | [], acc, out, h, hlen => by
    injection h with h
    rw [← h]
    exact hlen
  | t :: l, acc, out, h, hlen => by
    rw [foldE] at h
    unfold intensityStep at h
    cases hiv : get_component_intensity_vector s t with
    | error e =>
      rw [hiv] at h
      exact Except.noConfusion h
    | ok iv =>
      rw [hiv] at h
      refine foldE_intensityStep_length h ?_
      rw [length_vadd _ _ (by rw [hlen, intensity_ok_length hiv]), hlen]

theorem get_node_intensity_ok {s : Simulator} {k : ℕ} {row : List ℚ}
    (h : get_node_intensity s k = .ok row) :
    ∃ ivs, mapE (get_component_intensity_vector s) (s.nodes.getD k []) = .ok ivs ∧
      row = ivs.foldl vadd (zeros s.n) :=
  foldE_intensityStep h

theorem get_node_intensity_length {s : Simulator} {k : ℕ} {row : List ℚ}
    (h : get_node_intensity s k = .ok row) : row.length = s.n :=
  foldE_intensityStep_length h (length_zeros _)

theorem mapE_ok_mem {f : α → Except SimError β} :
    ∀ {l : List α} {ys : List β}, mapE f l = .ok ys →
      ∀ y ∈ ys, ∃ a ∈ l, f a = .ok y
  | [], ys, h, y, hy => by
    injection h with h
    rw [← h] at hy
    exact absurd hy (List.not_mem_nil y)
  | x :: xs, ys, h, y, hy => by
    rw [mapE] at h
    cases hfx : f x with
    | error e =>
      rw [hfx] at h
      exact Except.noConfusion h
    | ok b =>
      rw [hfx] at h
      cases hrest : mapE f xs with
      | error e =>
        rw [hrest] at h
        exact Except.noConfusion h
      | ok bs =>
        rw [hrest] at h
        injection h with h
        rw [← h] at hy
        rcases List.mem_cons.mp hy with rfl | hy
        · exact ⟨x, List.mem_cons_self _ _, hfx⟩
        · obtain ⟨a, ha, hfa⟩ := mapE_ok_mem hrest y hy
          exact ⟨a, List.mem_cons_of_mem _ ha, hfa⟩

/-! ## The voltage-source constraint rows -/

theorem get_vgenerator_voltage_eq {s : Simulator} {j cid p q : ℕ}
    (hcid : s.vgenerators[j]? = some cid)
    (hp : s.terminal_to_node ⟨cid, 0⟩ = some p)
    (hq : s.terminal_to_node ⟨cid, 1⟩ = some q) :
    get_vgenerator_voltage s j =
      .ok (vsub (unknown_node_voltage s q) (unknown_node_voltage s p)) := by
  unfold get_vgenerator_voltage
  simp only [hcid, hp, hq]

theorem vgen_row_length {s : Simulator} {j : ℕ} {row : List ℚ}
    (h : get_vgenerator_voltage s j = .ok row) : row.length = s.n := by
  unfold get_vgenerator_voltage at h
  repeat' split at h
  all_goals try exact Except.noConfusion h
  injection h with h
  subst h
  rw [length_vsub _ _ (by rw [length_unv, length_unv]), length_unv]


/-! ## Shape of the assembled matrix -/

theorem get_matrix_ok {s : Simulator} {M : List (List ℚ)} (h : get_matrix s = .ok M) :
    ∃ kcl gen,
      mapE (get_node_intensity s) (List.range' 1 (s.nodes.length - 1)) = .ok kcl ∧
      mapE (get_vgenerator_voltage s) (List.range s.vgenerators.length) = .ok gen ∧
      M = kcl ++ gen := by
  unfold get_matrix at h
  cases h1 : mapE (get_node_intensity s) (List.range' 1 (s.nodes.length - 1)) with
  | error e =>
    rw [h1] at h
    exact Except.noConfusion h
  | ok kcl =>
    rw [h1] at h
    cases h2 : mapE (get_vgenerator_voltage s) (List.range s.vgenerators.length) with
    | error e =>
      rw [h2] at h
      exact Except.noConfusion h
    | ok gen =>
      rw [h2] at h
      dsimp only at h
      by_cases h3 : kcl ++ gen = ([] : List (List ℚ))
      · rw [if_pos h3] at h
        exact Except.noConfusion h
      · rw [if_neg h3] at h
        injection h with h
        exact ⟨kcl, gen, rfl, rfl, h.symm⟩

theorem get_matrix_row_kcl {s : Simulator} {M : List (List ℚ)} {k : ℕ}
    (h : get_matrix s = .ok M) (hk1 : 1 ≤ k) (hk2 : k < s.nodes.length) :
    ∃ row, M[k - 1]? = some row ∧ get_node_intensity s k = .ok row := by
  obtain ⟨kcl, gen, h1, h2, hM⟩ := get_matrix_ok h
  have hlen : kcl.length = s.nodes.length - 1 := by
    rw [mapE_ok_length h1, List.length_range']
  have hik : k - 1 < kcl.length := by omega
  have hrange : (List.range' 1 (s.nodes.length - 1))[k - 1]? = some (1 + 1 * (k - 1)) :=
    List.getElem?_range' 1 1 (by omega)
  have heq : 1 + 1 * (k - 1) = k := by omega
  rw [heq] at hrange
  obtain ⟨row, hrow, hget⟩ := mapE_ok_get h1 (k - 1) k hrange
  refine ⟨row, ?_, hrow⟩
  rw [hM, List.getElem?_append, if_pos hik]
  exact hget

theorem get_matrix_row_gen {s : Simulator} {M : List (List ℚ)} {j : ℕ}
    (h : get_matrix s = .ok M) (hj : j < s.vgenerators.length) :
    ∃ row, M[s.nodes.length - 1 + j]? = some row ∧
      get_vgenerator_voltage s j = .ok row := by
  obtain ⟨kcl, gen, h1, h2, hM⟩ := get_matrix_ok h
  have hlen : kcl.length = s.nodes.length - 1 := by
    rw [mapE_ok_length h1, List.length_range']
  have hrange : (List.range s.vgenerators.length)[j]? = some j :=
    List.getElem?_range hj
  obtain ⟨row, hrow, hget⟩ := mapE_ok_get h2 j j hrange
  refine ⟨row, ?_, hrow⟩
  rw [hM, List.getElem?_append, if_neg (by omega)]
  have hidx : s.nodes.length - 1 + j - kcl.length = j := by omega
  rw [hidx]
  exact hget

theorem get_matrix_dims {s : Simulator} {M : List (List ℚ)} (h : get_matrix s = .ok M)
    (hn : s.n = s.nodes.length - 1 + s.vgenerators.length) :
    M.length = s.n ∧ ∀ row ∈ M, row.length = s.n := by
  obtain ⟨kcl, gen, h1, h2, hM⟩ := get_matrix_ok h
  constructor
  · rw [hM, List.length_append, mapE_ok_length h1, mapE_ok_length h2,
      List.length_range', List.length_range, hn]
  · intro row hrow
    rw [hM] at hrow
    rcases List.mem_append.mp hrow with hmem | hmem
    · obtain ⟨a, _, hfa⟩ := mapE_ok_mem h1 row hmem
      exact get_node_intensity_length hfa
    · obtain ⟨a, _, hfa⟩ := mapE_ok_mem h2 row hmem
      exact vgen_row_length hfa

/-! ## Entries of the result vector -/

theorem foldE_resultStep_length {s : Simulator} :
    ∀ {l : List (ℕ × ℕ)} {acc Y : List ℚ},
      foldE (resultStep s) acc l = .ok Y → Y.length = acc.length
  | [], acc, Y, h => by
    injection h with h
    rw [h]
  | p :: l, acc, Y, h => by
    rw [foldE] at h
    unfold resultStep at h
    cases hc : s.circuit.components[p.2]? with
    | none =>
      rw [hc] at h
      exact Except.noConfusion h
    | some comp =>
      rw [hc] at h
      cases comp with
      | Resistor res => exact Except.noConfusion h
      | VoltageGenerator v =>
        rw [foldE_resultStep_length h, List.length_set]

theorem foldE_resultStep_unchanged {s : Simulator} :
    ∀ {l : List (ℕ × ℕ)} {acc Y : List ℚ},
      foldE (resultStep s) acc l = .ok Y →
      ∀ i, (∀ p ∈ l, s.nodes.length - 1 + p.1 ≠ i) → entry Y i = entry acc i
  | [], acc, Y, h, i, _ => by
    injection h with h
    rw [h]
  | p :: l, acc, Y, h, i, hne => by
    rw [foldE] at h
    unfold resultStep at h
    cases hc : s.circuit.components[p.2]? with
    | none =>
      rw [hc] at h
      exact Except.noConfusion h
    | some comp =>
      rw [hc] at h
      cases comp with
      | Resistor res => exact Except.noConfusion h
      | VoltageGenerator v =>
        have hrec := foldE_resultStep_unchanged h i
          (fun q hq => hne q (List.mem_cons_of_mem _ hq))
        rw [hrec, entry_set,
          if_neg (fun hc2 => hne p (List.mem_cons_self _ _) hc2.1)]

theorem foldE_resultStep_entry {s : Simulator} :
    ∀ {l : List (ℕ × ℕ)} {acc Y : List ℚ},
      foldE (resultStep s) acc l = .ok Y →
      ∀ {j cid : ℕ} {E : ℚ}, (j, cid) ∈ l →
        (∀ p ∈ l, p.1 = j → p.2 = cid) →
        s.circuit.components[cid]? = some (Components.VoltageGenerator E) →
        s.nodes.length - 1 + j < acc.length →
        entry Y (s.nodes.length - 1 + j) = E
  | [], acc, Y, h, j, cid, E, hmem, _, _, _ => absurd hmem (List.not_mem_nil _)
  | p :: l, acc, Y, h, j, cid, E, hmem, huniq, hcomp, hlt => by
    rw [foldE] at h
    unfold resultStep at h
    cases hc : s.circuit.components[p.2]? with
    | none =>
      rw [hc] at h
      exact Except.noConfusion h
    | some comp =>
      rw [hc] at h
      cases comp with
      | Resistor res => exact Except.noConfusion h
      | VoltageGenerator v =>
        by_cases hp : p.1 = j
        · have hp2 : p.2 = cid := huniq p (List.mem_cons_self _ _) hp
          have hv : v = E := by
            rw [hp2] at hc
            rw [hc] at hcomp
            injection hcomp with hcomp
            injection hcomp
          by_cases hl : (j, cid) ∈ l
          · exact foldE_resultStep_entry h hl
              (fun q hq => huniq q (List.mem_cons_of_mem _ hq)) hcomp
              (by rw [List.length_set]; exact hlt)
          · have hnone : ∀ q ∈ l, s.nodes.length - 1 + q.1 ≠ s.nodes.length - 1 + j := by
              intro q hq hc2
              have hq1 : q.1 = j := by omega
              refine hl ?_
              rw [← show q = (j, cid) from
                Prod.ext hq1 (huniq q (List.mem_cons_of_mem _ hq) hq1)]
              exact hq
            rw [foldE_resultStep_unchanged h _ hnone, hp, entry_set,
              if_pos ⟨rfl, hlt⟩, hv]
        · refine foldE_resultStep_entry h ?_
            (fun q hq => huniq q (List.mem_cons_of_mem _ hq)) hcomp
            (by rw [List.length_set]; exact hlt)
          rcases List.mem_cons.mp hmem with heq | hmem'
          · exact absurd (by rw [← heq]) hp
          · exact hmem'

theorem result_vector_length {s : Simulator} {Y : List ℚ}
    (h : get_result_vector s = .ok Y) : Y.length = s.n := by
  unfold get_result_vector at h
  rw [foldE_resultStep_length h, length_zeros]

theorem result_vector_zero {s : Simulator} {Y : List ℚ}
    (h : get_result_vector s = .ok Y) {i : ℕ} (hi : i < s.nodes.length - 1) :
    entry Y i = 0 := by
  unfold get_result_vector at h
  rw [foldE_resultStep_unchanged h i (fun p _ => by omega), entry_zeros]

theorem result_vector_entry {s : Simulator} {Y : List ℚ}
    (h : get_result_vector s = .ok Y) {j cid : ℕ} {E : ℚ}
    (hj : s.vgenerators[j]? = some cid)
    (hcomp : s.circuit.components[cid]? = some (Components.VoltageGenerator E))
    (hjn : s.nodes.length - 1 + j < s.n) :
    entry Y (s.nodes.length - 1 + j) = E := by
  unfold get_result_vector at h
  refine foldE_resultStep_entry h ?_ ?_ hcomp ?_
  · exact List.mem_enum_iff_getElem?.mpr hj
  · intro p hp hpj
    have hpg := List.mem_enum_iff_getElem?.mp hp
    rw [hpj, hj] at hpg
    injection hpg with hpg
    exact hpg.symm
  · rw [length_zeros]
    exact hjn

/-! ## Properties of the voltage-generator index list -/

theorem vgensOf_mem {c : Circuit} {cid : ℕ} (h : cid ∈ vgensOf c) :
    ∃ E, c.components[cid]? = some (Components.VoltageGenerator E) := by
  unfold vgensOf at h
  obtain ⟨p, hp, hfp⟩ := List.mem_filterMap.mp h
  have hgp := List.mem_enum_iff_getElem?.mp hp
  cases hcomp : p.2 with
  | Resistor res =>
    rw [hcomp] at hfp
    exact Option.noConfusion hfp
  | VoltageGenerator E =>
    rw [hcomp] at hfp
    injection hfp with hfp
    subst hfp
    rw [hcomp] at hgp
    exact ⟨E, hgp⟩

/-! ## Node groups and the empty-edge-list underflow -/

theorem nodesOf_nil {c : Circuit} (h : c.terminal_edges = []) : nodesOf c = [] := by
  unfold nodesOf DisjointSet.into_terminal_groups dsOf seedsOf
  rw [h]
  rfl

theorem nodesOf_length_pos {c : Circuit} (h : c.terminal_edges ≠ []) :
    0 < (nodesOf c).length := by
  obtain ⟨e, he⟩ := List.exists_mem_of_ne_nil c.terminal_edges h
  have h1 : e.1 ∈ seedsOf c := by
    unfold seedsOf
    exact List.mem_flatMap.mpr ⟨e, he, List.mem_cons_self _ _⟩
  have h2 : e.1 ∈ (dsOf c).keys := by
    unfold dsOf
    rw [mergeAll_keys]
    exact (mem_keysOf _ _).mpr h1
  have h3 : (dsOf c).find e.1 ∈ (dsOf c).keys.map (dsOf c).find :=
    List.mem_map_of_mem _ h2
  have h4 : (dsOf c).find e.1 ∈ keysOf ((dsOf c).keys.map (dsOf c).find) :=
    (mem_keysOf _ _).mpr h3
  unfold nodesOf DisjointSet.into_terminal_groups
  rw [List.length_map]
  exact List.length_pos.mpr (List.ne_nil_of_mem h4)

/-! ## Terminals with a node id come from some edge -/

theorem t2n_mem_edge {c : Circuit} {t : TerminalID} {k : ℕ} (h : t2nOf c t = some k) :
    ∃ e ∈ c.terminal_edges, e.1 = t ∨ e.2 = t := by
  unfold t2nOf at h
  cases hf : (nodesOf c).enum.find? (fun p => decide (t ∈ p.2)) with
  | none =>
    rw [hf] at h
    exact Option.noConfusion h
  | some q =>
    have hmem : t ∈ q.2 := by
      have hq := List.find?_some hf
      simpa using hq
    have hpl : q ∈ (nodesOf c).enum := List.mem_of_find?_eq_some hf
    have hgrp : q.2 ∈ nodesOf c := getElem?_some_mem (List.mem_enum_iff_getElem?.mp hpl)
    have hkeys : t ∈ (dsOf c).keys := by
      unfold nodesOf DisjointSet.into_terminal_groups at hgrp
      obtain ⟨r, _, hfilter⟩ := List.mem_map.mp hgrp
      rw [← hfilter] at hmem
      exact (List.mem_filter.mp hmem).1
    have hseeds : t ∈ seedsOf c := by
      unfold dsOf at hkeys
      rw [mergeAll_keys] at hkeys
      exact (mem_keysOf _ _).mp hkeys
    unfold seedsOf at hseeds
    obtain ⟨e, he, hte⟩ := List.mem_flatMap.mp hseeds
    rcases List.mem_cons.mp hte with h1 | h1
    · exact ⟨e, he, Or.inl h1.symm⟩
    · have h2 : t = e.2 := by simpa using h1
      exact ⟨e, he, Or.inr h2.symm⟩

/-! ## Duplicate edges do not change the topology -/

theorem seedsOf_dup (c : Circuit) (e : TerminalID × TerminalID) :
    seedsOf (dupCircuit c e) = seedsOf c ++ [e.1, e.2] := by
  unfold seedsOf dupCircuit
  rw [List.flatMap_append]
  rfl

theorem edge_fst_seed {c : Circuit} {e : TerminalID × TerminalID}
    (he : e ∈ c.terminal_edges) : e.1 ∈ seedsOf c :=
  List.mem_flatMap.mpr ⟨e, he, List.mem_cons_self _ _⟩

theorem edge_snd_seed {c : Circuit} {e : TerminalID × TerminalID}
    (he : e ∈ c.terminal_edges) : e.2 ∈ seedsOf c :=
  List.mem_flatMap.mpr ⟨e, he, by simp⟩

theorem dsOf_dup {c : Circuit} {e : TerminalID × TerminalID}
    (he : e ∈ c.terminal_edges) : dsOf (dupCircuit c e) = dsOf c := by
  have hnew : DisjointSet.new (seedsOf (dupCircuit c e)) =
      DisjointSet.new (seedsOf c) := by
    unfold DisjointSet.new
    rw [seedsOf_dup, keysOf_append_mem _ _ _ (edge_fst_seed he) (edge_snd_seed he)]
  have hedges : (dupCircuit c e).terminal_edges = c.terminal_edges ++ [e] := rfl
  unfold dsOf
  rw [hedges, hnew]
  unfold mergeAll
  rw [List.foldl_append, List.foldl_cons, List.foldl_nil]
  have hm : ∀ pr ∈ c.terminal_edges, pr.1 ∈ seedsOf c ∧ pr.2 ∈ seedsOf c :=
    fun pr hpr => ⟨edge_fst_seed hpr, edge_snd_seed hpr⟩
  obtain ⟨G, hsub, hchar⟩ := dsRun_inv (seedsOf c) c.terminal_edges hm
  have hmem1 : e.1 ∈ (dsRun (seedsOf c) c.terminal_edges).keys := by
    rw [dsRun_keys]
    exact (mem_keysOf _ _).mpr (edge_fst_seed he)
  have hmem2 : e.2 ∈ (dsRun (seedsOf c) c.terminal_edges).keys := by
    rw [dsRun_keys]
    exact (mem_keysOf _ _).mpr (edge_snd_seed he)
  have hfind : (dsRun (seedsOf c) c.terminal_edges).find e.1 =
      (dsRun (seedsOf c) c.terminal_edges).find e.2 := by
    refine (hchar e.1 hmem1 e.2 hmem2).mpr (EqClosure.base ?_)
    rw [Prod.mk.eta]
    exact he
  exact merge_self_eq G hmem1 hfind

theorem nodesOf_dup {c : Circuit} {e : TerminalID × TerminalID}
    (he : e ∈ c.terminal_edges) : nodesOf (dupCircuit c e) = nodesOf c := by
  unfold nodesOf
  rw [dsOf_dup he]

theorem t2nOf_dup {c : Circuit} {e : TerminalID × TerminalID}
    (he : e ∈ c.terminal_edges) : t2nOf (dupCircuit c e) = t2nOf c := by
  funext t
  unfold t2nOf
  rw [nodesOf_dup he]

theorem simulate_edges_irrel (comps : List Components)
    (ed1 ed2 : List (TerminalID × TerminalID)) (n : ℕ) (c2v : ℕ → Option ℕ)
    (nodes : List (List TerminalID)) (t2n : TerminalID → Option ℕ) (vg : List ℕ) :
    simulate ⟨⟨comps, ed1⟩, n, c2v, nodes, t2n, vg⟩ =
      simulate ⟨⟨comps, ed2⟩, n, c2v, nodes, t2n, vg⟩ :=
  rfl

/-! ## Length of the solver output -/

theorem gaussSolve_length :
    ∀ (k : ℕ) (rows : List (List ℚ)) {xs : List ℚ},
      gaussSolve k rows = some xs → xs.length = k
  | 0, rows, xs, h => by
    injection h with h
    rw [← h]
    rfl
  | k + 1, rows, xs, h => by
    rw [gaussSolve] at h
    cases hp : findPivot rows with
    | none =>
      rw [hp] at h
      exact Option.noConfusion h
    | some pr =>
      rw [hp] at h
      obtain ⟨p, rest⟩ := pr
      dsimp only at h
      split at h
      · exact Option.noConfusion h
      · rename_i xs' heq
        injection h with h
        rw [← h, List.length_cons, gaussSolve_length k _ heq]

theorem lu_solve_length {m : List (List ℚ)} {y u : List ℚ}
    (h : lu_solve m y = some u) : u.length = m.length :=
  gaussSolve_length _ _ h

/-! ## The claims -/

/-- Claim C3: for every seed list and every finite sequence of merges of
seeded terminals, `find a = find b` iff `a` and `b` lie in the same class of
the reflexive-symmetric-transitive closure of the merged pairs; and `find` is
idempotent. -/
theorem c3_unionfind_contract (ts : List TerminalID)
    (ms : List (TerminalID × TerminalID))
    (hms : ∀ pr ∈ ms, pr.1 ∈ ts ∧ pr.2 ∈ ts) (a b : TerminalID)
    (ha : a ∈ ts) (hb : b ∈ ts) :
    ((dsRun ts ms).find a = (dsRun ts ms).find b ↔
      EqClosure (fun x y => (x, y) ∈ ms) a b) ∧
    (dsRun ts ms).find ((dsRun ts ms).find a) = (dsRun ts ms).find a := by
  obtain ⟨G, hsub, hchar⟩ := dsRun_inv ts ms hms
  have hka : a ∈ (dsRun ts ms).keys := by
    rw [dsRun_keys]
    exact (mem_keysOf _ _).mpr ha
  have hkb : b ∈ (dsRun ts ms).keys := by
    rw [dsRun_keys]
    exact (mem_keysOf _ _).mpr hb
  exact ⟨hchar a hka b hkb, find_of_root (find_isRoot G hka)⟩

/-- Witness for C3 on a concrete run: three seeded terminals, one merge;
the merged pair is `find`-equal and related by the closure, and `find` is
idempotent there. -/
theorem c3_unionfind_contract_witness :
    ((dsRun [⟨0, 0⟩, ⟨0, 1⟩, ⟨1, 0⟩] [(⟨0, 0⟩, ⟨0, 1⟩)]).find ⟨0, 0⟩ =
      (dsRun [⟨0, 0⟩, ⟨0, 1⟩, ⟨1, 0⟩] [(⟨0, 0⟩, ⟨0, 1⟩)]).find ⟨0, 1⟩ ↔
      EqClosure (fun x y => (x, y) ∈ [((⟨0, 0⟩ : TerminalID), (⟨0, 1⟩ : TerminalID))])
        ⟨0, 0⟩ ⟨0, 1⟩) ∧
    (dsRun [⟨0, 0⟩, ⟨0, 1⟩, ⟨1, 0⟩] [(⟨0, 0⟩, ⟨0, 1⟩)]).find
      ((dsRun [⟨0, 0⟩, ⟨0, 1⟩, ⟨1, 0⟩] [(⟨0, 0⟩, ⟨0, 1⟩)]).find ⟨0, 0⟩) =
      (dsRun [⟨0, 0⟩, ⟨0, 1⟩, ⟨1, 0⟩] [(⟨0, 0⟩, ⟨0, 1⟩)]).find ⟨0, 0⟩ :=
  c3_unionfind_contract _ _ (by decide) _ _ (by decide) (by decide)

/-- Claim C10: after any merge sequence on seeded terminals the parent map is
acyclic apart from root self-loops — every seeded terminal reaches a root in
finitely many steps — so the parent-chasing loop of `find` terminates (the
fueled chase returns a result instead of running out). -/
theorem c10_find_terminates (ts : List TerminalID)
    (ms : List (TerminalID × TerminalID))
    (hms : ∀ pr ∈ ms, pr.1 ∈ ts ∧ pr.2 ∈ ts) (t : TerminalID) (ht : t ∈ ts) :
    (∃ k, IsRoot (dsRun ts ms).parent ((dsRun ts ms).parent^[k] t)) ∧
    findAux (dsRun ts ms).parent ((dsRun ts ms).keys.length + 1) t =
      some ((dsRun ts ms).find t) := by
  obtain ⟨G, hsub, hchar⟩ := dsRun_inv ts ms hms
  have hkt : t ∈ (dsRun ts ms).keys := by
    rw [dsRun_keys]
    exact (mem_keysOf _ _).mpr ht
  refine ⟨G.reach t hkt, ?_⟩
  obtain ⟨k, hk, hroot⟩ := reach_bound G.closed hkt (G.reach t hkt)
  obtain ⟨r, hfind, _⟩ := findAux_some ((dsRun ts ms).keys.length + 1) t
    ⟨k, by omega, hroot⟩
  rw [hfind]
  unfold DisjointSet.find
  rw [hfind]
  rfl

/-- Witness for C10 on a concrete run: the chase from a merged terminal
reaches a root and the fueled loop returns it. -/
theorem c10_find_terminates_witness :
    (∃ k, IsRoot (dsRun [⟨0, 0⟩, ⟨0, 1⟩] [(⟨0, 0⟩, ⟨0, 1⟩)]).parent
      ((dsRun [⟨0, 0⟩, ⟨0, 1⟩] [(⟨0, 0⟩, ⟨0, 1⟩)]).parent^[k] ⟨0, 0⟩)) ∧
    findAux (dsRun [⟨0, 0⟩, ⟨0, 1⟩] [(⟨0, 0⟩, ⟨0, 1⟩)]).parent
      ((dsRun [⟨0, 0⟩, ⟨0, 1⟩] [(⟨0, 0⟩, ⟨0, 1⟩)]).keys.length + 1) ⟨0, 0⟩ =
      some ((dsRun [⟨0, 0⟩, ⟨0, 1⟩] [(⟨0, 0⟩, ⟨0, 1⟩)]).find ⟨0, 0⟩) :=
  c10_find_terminates _ _ (by decide) _ (by decide)

/-- Claim C9: a circuit whose edge list is empty yields zero node groups, and
the constructor does not return a simulator: `nodes.len() - 1` underflows on
`usize` and the constructor panics (the panic is modelled as `none`). -/
theorem c9_empty_circuit_panics (c : Circuit) (h : c.terminal_edges = []) :
    nodesOf c = [] ∧ Simulator.new c = none := by
  have hn := nodesOf_nil h
  refine ⟨hn, ?_⟩
  unfold Simulator.new
  rw [if_pos (by rw [hn]; rfl)]

/-- Witness for C9: the concrete edge-free circuit has no node groups and no
simulator. -/
theorem c9_empty_circuit_panics_witness :
    nodesOf cNoEdges = [] ∧ Simulator.new cNoEdges = none :=
  c9_empty_circuit_panics cNoEdges rfl

/-- Claim C5 (amended): the constructor performs no validation at all — it
returns a simulator for every circuit with at least one edge, in particular
one whose resistor has R = 0, and never reports `InvalidComponent` (the spec
itself notes in its open questions that the reference validates nothing). -/
theorem c5_no_validation (c : Circuit) (h : c.terminal_edges ≠ []) :
    (Simulator.new c).isSome = true :=
  new_isSome_of_nodes (by have := nodesOf_length_pos h; omega)

/-- Witness for C5 (amended), at a circuit with one edge and a positive
resistor. -/
theorem c5_no_validation_witness : (Simulator.new cLoop).isSome = true :=
  c5_no_validation cLoop (by decide)

/-- Claim C4 (amended): for every accepted circuit the number of unknowns is
n = (|nodes| − 1) + |voltage sources|; whenever assembly succeeds the matrix
is n×n; any solver solution of the assembled matrix has length n; and the
unknown layout places node k at index k − 1 and source current j at index
|nodes| − 1 + j.  (When n = 0 the assembly itself panics — see the
counterexample — which is the only amendment to the claim.) -/
theorem c4_layout (c : Circuit) (s : Simulator) (hs : Simulator.new c = some s) :
    s.n = s.nodes.length - 1 + s.vgenerators.length ∧
    (∀ M, get_matrix s = .ok M → M.length = s.n ∧ ∀ row ∈ M, row.length = s.n) ∧
    (∀ M Y u, get_matrix s = .ok M → lu_solve M Y = some u → u.length = s.n) ∧
    (∀ k, 1 ≤ k → unknown_node_voltage s k = basis s.n (k - 1)) ∧
    (∀ j, unknown_vgenerator_intensity s j = basis s.n (s.nodes.length - 1 + j)) := by
  obtain ⟨hcirc, hn, hnodes, ht2n, hc2v, hvg, hpos⟩ := new_fields hs
  have hn' : s.n = s.nodes.length - 1 + s.vgenerators.length := by
    rw [hn, hnodes, hvg]
  refine ⟨hn', ?_, ?_, ?_, ?_⟩
  · intro M hM
    exact get_matrix_dims hM hn'
  · intro M Y u hM hu
    exact (lu_solve_length hu).trans (get_matrix_dims hM hn').1
  · intro k hk
    unfold unknown_node_voltage
    rw [if_neg (by omega)]
  · intro j
    rfl

/-- Claim C1 (amended): row k−1 of the assembled matrix is the sum, over the
terminals of node k, of the per-terminal contribution vectors; and the
contribution of a resistor terminal whose own node is nk and whose other
terminal's node is nm has entries (+1/R at column nk−1 when nk ≠ 0, −1/R at
column nm−1 when nm ≠ 0) — with this same orientation for *both* terminal 0
and terminal 1 (the code computes (V_own − V_other)/R for either terminal;
the sign flip for terminal 0 claimed by the spec does not occur), so
self-loop contributions (nk = nm) cancel algebraically. -/
theorem c1_kcl_row (c : Circuit) (s : Simulator) (hs : Simulator.new c = some s)
    (M : List (List ℚ)) (hM : get_matrix s = .ok M) (k : ℕ)
    (hk1 : 1 ≤ k) (hk2 : k < s.nodes.length) :
    (∃ row ivs, M[k - 1]? = some row ∧
      mapE (get_component_intensity_vector s) (s.nodes.getD k []) = .ok ivs ∧
      row = ivs.foldl vadd (zeros s.n)) ∧
    (∀ (t ot : TerminalID) (res : ℚ) (nk nm : ℕ) (v : List ℚ),
      s.circuit.components[t.component_id]? = some (Components.Resistor res) →
      get_other_terminal t = some ot →
      s.terminal_to_node t = some nk →
      s.terminal_to_node ot = some nm →
      get_component_intensity_vector s t = .ok v →
      ∀ i, i < s.n →
        entry v i = ((if nk ≠ 0 ∧ i = nk - 1 then 1 else 0) -
          (if nm ≠ 0 ∧ i = nm - 1 then 1 else 0)) / res) := by
  constructor
  · obtain ⟨row, hrow, hint⟩ := get_matrix_row_kcl hM hk1 hk2
    obtain ⟨ivs, hmap, hfold⟩ := get_node_intensity_ok hint
    exact ⟨row, ivs, hrow, hmap, hfold⟩
  · intro t ot res nk nm v hcomp hot hnk hnm hv i hi
    exact intensity_resistor_entry hcomp hot hnk hnm hi hv

/-- Claim C2: the constraint row of voltage source j (source voltage E,
terminal 0 at node p, terminal 1 at node q) has +1 at column q−1 when q ≠ 0,
−1 at column p−1 when p ≠ 0 and zero elsewhere; the right-hand side has E at
row |nodes|−1+j and zero at every KCL row. -/
theorem c2_vgen_row (c : Circuit) (s : Simulator) (hs : Simulator.new c = some s)
    (j cid : ℕ) (E : ℚ) (p q : ℕ)
    (hj : s.vgenerators[j]? = some cid)
    (hE : c.components[cid]? = some (Components.VoltageGenerator E))
    (hp : s.terminal_to_node ⟨cid, 0⟩ = some p)
    (hq : s.terminal_to_node ⟨cid, 1⟩ = some q)
    (M : List (List ℚ)) (hM : get_matrix s = .ok M)
    (Y : List ℚ) (hY : get_result_vector s = .ok Y) :
    (∃ row, M[s.nodes.length - 1 + j]? = some row ∧
      ∀ i, i < s.n →
        entry row i = (if q ≠ 0 ∧ i = q - 1 then 1 else 0) -
          (if p ≠ 0 ∧ i = p - 1 then 1 else 0)) ∧
    entry Y (s.nodes.length - 1 + j) = E ∧
    (∀ i, i < s.nodes.length - 1 → entry Y i = 0) := by
  obtain ⟨hcirc, hn, hnodes, ht2n, hc2v, hvg, hpos⟩ := new_fields hs
  have hj_lt : j < s.vgenerators.length := getElem?_some_lt hj
  have hn' : s.n = s.nodes.length - 1 + s.vgenerators.length := by
    rw [hn, hnodes, hvg]
  refine ⟨?_, ?_, ?_⟩
  · obtain ⟨row, hrow, hgv⟩ := get_matrix_row_gen hM hj_lt
    refine ⟨row, hrow, ?_⟩
    rw [get_vgenerator_voltage_eq hj hp hq] at hgv
    injection hgv with hgv
    subst hgv
    intro i hi
    rw [entry_vsub _ _ (by rw [length_unv, length_unv]), entry_unv, entry_unv]
    have h1 : (q ≠ 0 ∧ i < s.n ∧ i = q - 1) ↔ (q ≠ 0 ∧ i = q - 1) :=
      ⟨fun hc => ⟨hc.1, hc.2.2⟩, fun hc => ⟨hc.1, hi, hc.2⟩⟩
    have h2 : (p ≠ 0 ∧ i < s.n ∧ i = p - 1) ↔ (p ≠ 0 ∧ i = p - 1) :=
      ⟨fun hc => ⟨hc.1, hc.2.2⟩, fun hc => ⟨hc.1, hi, hc.2⟩⟩
    rw [if_congr h1 rfl rfl, if_congr h2 rfl rfl]
  · refine result_vector_entry hY hj ?_ (by omega)
    rw [hcirc]
    exact hE
  · intro i hi
    exact result_vector_zero hY hi

/-- Claim C7 (amended): the terminal-to-node map is defined only on edge
endpoints — whenever it assigns a node to t, t occurs in some edge.  A
terminal of a component that appears in no edge therefore belongs to *no*
node of the partition (the union-find is seeded only with edge endpoints; no
isolated node is fabricated), and the result decoder panics on it. -/
theorem c7_no_isolated_nodes (c : Circuit) (s : Simulator)
    (hs : Simulator.new c = some s) (t : TerminalID) (k : ℕ)
    (ht : s.terminal_to_node t = some k) :
    ∃ e ∈ c.terminal_edges, e.1 = t ∨ e.2 = t := by
  obtain ⟨hcirc, hn, hnodes, ht2n, hc2v, hvg, hpos⟩ := new_fields hs
  rw [ht2n] at ht
  exact t2n_mem_edge ht

/-- Claim C8: building the simulator from a circuit with a duplicate copy of
an existing edge appended yields the same node partition and the same
simulated per-component readings. -/
theorem c8_duplicate_edge (c : Circuit) (e : TerminalID × TerminalID)
    (he : e ∈ c.terminal_edges) :
    (Simulator.new c).map Simulator.nodes =
      (Simulator.new (dupCircuit c e)).map Simulator.nodes ∧
    (Simulator.new c).map simulate =
      (Simulator.new (dupCircuit c e)).map simulate := by
  have hnodes := nodesOf_dup he
  have ht2n := t2nOf_dup he
  unfold Simulator.new
  rw [hnodes, ht2n]
  by_cases h0 : (nodesOf c).length = 0
  · rw [if_pos h0, if_pos h0]
    exact ⟨rfl, rfl⟩
  · rw [if_neg h0, if_neg h0]
    exact ⟨rfl, rfl⟩

section

attribute [local semireducible] Rat.add Rat.mul Rat.sub Rat.inv

/-- Counterexample for C1 as stated: in `cSeries` the terminal ⟨2, 0⟩ is
terminal 0 of the 4 Ω resistor; its own node is 1 and the other terminal's
node is 2, so the claim predicts the negated contribution [−1/4, 1/4, 0];
the code computes [1/4, −1/4, 0] — no sign flip happens for terminal 0. -/
theorem c1_counterexample :
    (Simulator.new cSeries).map (lookupIn ⟨2, 0⟩) = some (some 1) ∧
    (Simulator.new cSeries).map (lookupIn ⟨2, 1⟩) = some (some 2) ∧
    contribAt cSeries ⟨2, 0⟩ = some (.ok [1/4, -1/4, 0]) ∧
    ([1/4, -1/4, 0] : List ℚ) ≠ [-1/4, 1/4, 0] := by
  refine ⟨by decide, by decide, by decide, by decide⟩

/-- Witness for C1 (amended) on `cLoop`: node 1, with the resistor terminal
⟨1, 1⟩ at node 1 and its other terminal at node 0. -/
theorem c1_kcl_row_witness :
    (∃ row ivs,
      ([[1/2, -1], [-1, 0]] : List (List ℚ))[1 - 1]? = some row ∧
      mapE (get_component_intensity_vector ((Simulator.new cLoop).get (by decide)))
        (((Simulator.new cLoop).get (by decide)).nodes.getD 1 []) = .ok ivs ∧
      row = ivs.foldl vadd (zeros ((Simulator.new cLoop).get (by decide)).n)) ∧
    (∀ (t ot : TerminalID) (res : ℚ) (nk nm : ℕ) (v : List ℚ),
      ((Simulator.new cLoop).get (by decide)).circuit.components[t.component_id]? =
        some (Components.Resistor res) →
      get_other_terminal t = some ot →
      ((Simulator.new cLoop).get (by decide)).terminal_to_node t = some nk →
      ((Simulator.new cLoop).get (by decide)).terminal_to_node ot = some nm →
      get_component_intensity_vector ((Simulator.new cLoop).get (by decide)) t = .ok v →
      ∀ i, i < ((Simulator.new cLoop).get (by decide)).n →
        entry v i = ((if nk ≠ 0 ∧ i = nk - 1 then 1 else 0) -
          (if nm ≠ 0 ∧ i = nm - 1 then 1 else 0)) / res) :=
  c1_kcl_row cLoop ((Simulator.new cLoop).get (by decide))
    (Option.some_get (by decide)).symm [[1/2, -1], [-1, 0]] (by decide) 1
    (le_refl 1) (by decide)

/-- Witness for C2 on `cLoop`: source 0 is component 0 with E = 10, terminal
0 at node 1 and terminal 1 at node 0 (ground). -/
theorem c2_vgen_row_witness :
    (∃ row,
      ([[1/2, -1], [-1, 0]] : List (List ℚ))[((Simulator.new cLoop).get
        (by decide)).nodes.length - 1 + 0]? = some row ∧
      ∀ i, i < ((Simulator.new cLoop).get (by decide)).n →
        entry row i = (if (0 : ℕ) ≠ 0 ∧ i = 0 - 1 then 1 else 0) -
          (if (1 : ℕ) ≠ 0 ∧ i = 1 - 1 then 1 else 0)) ∧
    entry [0, 10] (((Simulator.new cLoop).get (by decide)).nodes.length - 1 + 0) = 10 ∧
    (∀ i, i < ((Simulator.new cLoop).get (by decide)).nodes.length - 1 →
      entry [0, 10] i = 0) :=
  c2_vgen_row cLoop ((Simulator.new cLoop).get (by decide))
    (Option.some_get (by decide)).symm 0 0 10 1 0 (by decide) (by decide)
    (by decide) (by decide) [[1/2, -1], [-1, 0]] (by decide) [0, 10] (by decide)

/-- Counterexample for C4 as stated: `cSelfLoop` (one self-looped resistor)
is accepted by the constructor with n = 0 unknowns, but no 0×0 matrix is
assembled — `DMatrix::from_rows` panics on the empty row list. -/
theorem c4_counterexample :
    (Simulator.new cSelfLoop).map Simulator.n = some 0 ∧
    (Simulator.new cSelfLoop).map get_matrix = some (.error .emptyMatrix) := by
  refine ⟨by decide, by decide⟩

/-- Witness for C4 (amended) on `cLoop`. -/
theorem c4_layout_witness :
    ((Simulator.new cLoop).get (by decide)).n =
      ((Simulator.new cLoop).get (by decide)).nodes.length - 1 +
      ((Simulator.new cLoop).get (by decide)).vgenerators.length ∧
    (∀ M, get_matrix ((Simulator.new cLoop).get (by decide)) = .ok M →
      M.length = ((Simulator.new cLoop).get (by decide)).n ∧
      ∀ row ∈ M, row.length = ((Simulator.new cLoop).get (by decide)).n) ∧
    (∀ M Y u, get_matrix ((Simulator.new cLoop).get (by decide)) = .ok M →
      lu_solve M Y = some u → u.length = ((Simulator.new cLoop).get (by decide)).n) ∧
    (∀ k, 1 ≤ k → unknown_node_voltage ((Simulator.new cLoop).get (by decide)) k =
      basis ((Simulator.new cLoop).get (by decide)).n (k - 1)) ∧
    (∀ j, unknown_vgenerator_intensity ((Simulator.new cLoop).get (by decide)) j =
      basis ((Simulator.new cLoop).get (by decide)).n
        (((Simulator.new cLoop).get (by decide)).nodes.length - 1 + j)) :=
  c4_layout cLoop ((Simulator.new cLoop).get (by decide))
    (Option.some_get (by decide)).symm

/-- Counterexample for C5 as stated: the constructor happily accepts the
circuit whose only resistor has R = 0 instead of returning
`InvalidComponent`. -/
theorem c5_counterexample : (Simulator.new cZeroR).isSome = true := by
  decide

/-- Counterexample for C6 as stated: on `cDangling` (a working source loop
plus a resistor none of whose terminals is wired) the built simulator's
`simulate` fails with the terminal-lookup panic, which is not the
singular-system failure. -/
theorem c6_counterexample :
    (Simulator.new cDangling).map simulate = some (.error .missingTerminal) ∧
    SimError.missingTerminal ≠ SimError.singular := by
  refine ⟨by decide, by decide⟩

/-- Claim C6 (amended): once a simulator is built, `simulate` can still fail
in more than one way, and it panics rather than returning an error value: on
the shorted source `cShort` the solver finds a singular system and the
`unwrap` panics (modelled `.error .singular`), while on `cDangling` the
decode loop panics looking up a terminal that belongs to no node (modelled
`.error .missingTerminal`) even though the solve itself succeeded. -/
theorem c6_simulate_failures :
    (Simulator.new cShort).map simulate = some (.error .singular) ∧
    (Simulator.new cDangling).map simulate = some (.error .missingTerminal) := by
  refine ⟨by decide, by decide⟩

/-- Counterexample for C7 as stated: in `cDangling`, terminal ⟨1, 0⟩ of the
un-wired resistor is mapped to *no* node (the lookup yields `none`, not an
isolated node), and the result decoder panics on it. -/
theorem c7_counterexample :
    (Simulator.new cDangling).map (lookupIn ⟨1, 0⟩) = some none ∧
    (Simulator.new cDangling).map simulate = some (.error .missingTerminal) := by
  refine ⟨by decide, by decide⟩

/-- Witness for C7 (amended) on `cDangling`: terminal ⟨0, 1⟩ has node 0 and
indeed occurs in an edge. -/
theorem c7_no_isolated_nodes_witness :
    ∃ e ∈ cDangling.terminal_edges, e.1 = (⟨0, 1⟩ : TerminalID) ∨
      e.2 = (⟨0, 1⟩ : TerminalID) :=
  c7_no_isolated_nodes cDangling ((Simulator.new cDangling).get (by decide))
    (Option.some_get (by decide)).symm ⟨0, 1⟩ 0 (by decide)

/-- Witness for C8 on `cLoop` with its first edge duplicated. -/
theorem c8_duplicate_edge_witness :
    (Simulator.new cLoop).map Simulator.nodes =
      (Simulator.new (dupCircuit cLoop (⟨0, 1⟩, ⟨1, 0⟩))).map Simulator.nodes ∧
    (Simulator.new cLoop).map simulate =
      (Simulator.new (dupCircuit cLoop (⟨0, 1⟩, ⟨1, 0⟩))).map simulate :=
  c8_duplicate_edge cLoop (⟨0, 1⟩, ⟨1, 0⟩) (by decide)

end
